import Mathlib

/-!
# Verification of the `BrokenRadio` speech engine (`src/pbIII/engines/speech.py`)

A shallow embedding of the event-scheduling core of the `BrokenRadio` class:
source-catalog construction (`detect_files`), schedule building under the
`parallel` and `sequential` interlocking policies, the construction-time
duration check, the render-time duration budgeter, per-effect level gating,
and the ambient-noise ramp chaining.

Durations (Python floats) are modelled as rationals.  Helpers that live in
external libraries (`mu.utils.tools`, `mu.utils.infit`,
`mu.utils.activity_levels`, `natsort`, Python's `random`) are not part of the
repository sources; each such definition carries a doc comment starting with
`Modelled from the spec:` and follows the specification's wording.
-/

namespace Speech

/-- Modelled from the spec: `mu.utils.infit.InfIt` — an object that "produces
next value" of an infinite stream; `f` gives the value of each successive
draw and `idx` counts the draws already taken. -/
structure InfIt (α : Type) where
  f : Nat → α
  idx : Nat

/-- One draw from an infinite stream (Python `next(...)`). -/
def InfIt.next (s : InfIt α) : α × InfIt α := (s.f s.idx, ⟨s.f, s.idx + 1⟩)

/-- Modelled from the spec: `mu.utils.infit.Cycle` — an infinite cyclic
stream over a tuple (`d` is only used when the tuple is empty). -/
def InfIt.cycle (l : List α) (d : α) : InfIt α :=
  ⟨fun n => l.getD (n % l.length) d, 0⟩

/-- Modelled from the spec: one step of the deterministic pseudorandom
generator standing in for Python's seeded `random` module (a linear
congruential step; the spec only requires fixed-seed determinism). -/
def lcg (s : Nat) : Nat := (s * 1103515245 + 12345) % 2147483648

/-- Iterated pseudorandom steps. -/
def lcgIter (s n : Nat) : Nat := lcg^[n] s

/-- Modelled from the spec: `random.seed(n)` — the generator state obtained
from a fixed seed, discarding any previous state. -/
def pySeed (n : Nat) : Nat := lcg n

/-- Pseudorandom sort key for the list position `i` under generator state
`st`; used by the shuffle model. -/
def shuffleKey (st i : Nat) : Nat := lcgIter st (i + 1)

/-- Total order on enumerated positions used by the shuffle model: compare
pseudorandom keys, break ties by position. -/
def shuffleRel (st : Nat) (a b : Nat × α) : Prop :=
  shuffleKey st a.1 < shuffleKey st b.1 ∨
    (shuffleKey st a.1 = shuffleKey st b.1 ∧ a.1 ≤ b.1)

instance (st : Nat) : DecidableRel (α := Nat × α) (shuffleRel st) := by
  intro a b
  unfold shuffleRel
  infer_instance

/-- Modelled from the spec: `random.shuffle` under a fixed seed — "a
fixed-seed pseudorandom shuffle (deterministic across runs for
reproducibility)": permute the list by sorting positions on a pseudorandom
key, and advance the generator state by the length of the list. -/
def seededShuffle (st : Nat) (l : List α) : List α × Nat :=
  ((l.enum.insertionSort (shuffleRel st)).map Prod.snd, lcgIter st l.length)

/-- Modelled from the spec: tokenisation for `natsort` natural (numeric-aware)
ordering — split a character list into maximal runs of digits / non-digits
(the `Bool` records whether the run is a digit run). -/
def natTokens (l : List Char) : List (Bool × List Char) :=
  l.foldr
    (fun c acc =>
      match acc with
      | (b, run) :: rest =>
        if c.isDigit = b then (b, c :: run) :: rest
        else (c.isDigit, [c]) :: (b, run) :: rest
      | [] => [(c.isDigit, [c])])
    []

/-- Numeric value of a digit run. -/
def digitsVal (l : List Char) : Nat :=
  l.foldl (fun n c => 10 * n + (c.toNat - 48)) 0

/-- Strict lexicographic comparison of character runs. -/
def charListLt : List Char → List Char → Bool
  | [], [] => false
  | [], _ :: _ => true
  | _ :: _, [] => false
  | a :: as, b :: bs =>
    if a < b then true else if b < a then false else charListLt as bs

/-- Modelled from the spec: the `natsort` sort key of a string — digit runs
compare numerically, other runs compare textually. -/
def natKey (s : String) : List (Nat ⊕ List Char) :=
  (natTokens s.data).map
    (fun p => if p.1 then Sum.inl (digitsVal p.2) else Sum.inr p.2)

/-- Strict comparison of single sort-key tokens (numbers sort before text). -/
def tokLt : (Nat ⊕ List Char) → (Nat ⊕ List Char) → Bool
  | Sum.inl m, Sum.inl n => decide (m < n)
  | Sum.inl _, Sum.inr _ => true
  | Sum.inr _, Sum.inl _ => false
  | Sum.inr a, Sum.inr b => charListLt a b

/-- Lexicographic (non-strict) comparison of sort keys. -/
def keyLe : List (Nat ⊕ List Char) → List (Nat ⊕ List Char) → Bool
  | [], _ => true
  | _ :: _, [] => false
  | a :: as, b :: bs =>
    if tokLt a b then true else if tokLt b a then false else keyLe as bs

/-- Natural (numeric-aware) string comparison. -/
def natLe (a b : String) : Prop := keyLe (natKey a) (natKey b) = true

instance : DecidableRel natLe := by
  intro a b
  unfold natLe
  infer_instance

/-- Modelled from the spec: `natsort.natsorted` — sort "using natural
(numeric-aware) order". -/
def natsorted (l : List String) : List String := l.insertionSort natLe

/-- The typed errors of the specification.  The source raises `ValueError` in
all three situations; the spec names the unknown-policy failures
`ConfigError` and the duration-shortfall failure `InsufficientMaterialError`
(speech.py:296-300, 217-218, 248-254).  `EmptySequenceError` models Python's
`min()` failing on an empty sequence. -/
inductive Err where
  | ConfigError : String → Err
  | InsufficientMaterialError : ℚ → ℚ → Err
  | EmptySequenceError : Err
  deriving DecidableEq

/-- The extension filter of `detect_files` (speech.py:311):
`filter(lambda f: f.endswith("wav"), all_files)` — suffix check on the
character list. -/
def wavFilter (l : List String) : List String :=
  l.filter (fun f => "wav".data.isSuffixOf f.data)

/-- The per-source loop of `BrokenRadio.detect_files` (speech.py:291-314):
for each `(path, listing, order, skip)` triple-zipped entry, first check the
order policy, then natural-sort the raw directory listing, drop the first
`skip` entries, apply the ordering policy (threading the shuffle generator
state), and only then filter to `"wav"` files and prefix the source path.
A source is a pair of its directory path and its raw directory listing
(`os.listdir`). -/
def detectFilesGo (st : Nat) :
    List (String × List String) → List String → List Nat →
      Except Err (List (List String))
  | [], _, _ => Except.ok []
  | _ :: _, [], _ => Except.ok []
  | _ :: _, _ :: _, [] => Except.ok []
  | (path, listing) :: ss, order :: os, skip :: ks =>
    if order ∈ (["original", "reverse", "shuffle"] : List String) then
      let afterSkip := (natsorted listing).drop skip
      let op : List String × Nat :=
        if order = "reverse" then (afterSkip.reverse, st)
        else if order = "shuffle" then seededShuffle st afterSkip
        else (afterSkip, st)
      match detectFilesGo op.2 ss os ks with
      | Except.ok rest =>
        Except.ok (((wavFilter op.1).map (fun f => path ++ f)) :: rest)
      | Except.error e => Except.error e
    else Except.error (Err.ConfigError ("Unknown order: " ++ order ++ "."))

/-- `BrokenRadio.detect_files` (speech.py:283-314).  `g` is the pre-existing
state of Python's global random generator; the function begins with
`random_shuffle.seed(10)`, so `g` is discarded and the shuffle state always
starts from the fixed seed `10`. -/
def detectFiles (g : Nat) (sources : List (String × List String))
    (orders : List String) (skips : List Nat) :
    Except Err (List (List String)) :=
  detectFilesGo (pySeed 10) sources orders skips

/-- The catalog pipeline in the order the *specification* states it (filter to
the supported extension first, then natural-sort, then drop `skip` entries,
then apply the ordering policy) — stated from the spec's words for comparison
with `detectFilesGo`, which filters last. -/
def specCatalogSource (st : Nat) (path : String) (listing : List String)
    (order : String) (skip : Nat) : List String :=
  let afterSkip := (natsorted (wavFilter listing)).drop skip
  let ordered :=
    if order = "reverse" then afterSkip.reverse
    else if order = "shuffle" then (seededShuffle st afterSkip).1
    else afterSkip
  ordered.map (fun f => path ++ f)

/-- Offset order of the spec's Euclidean interleaving, specialised to the
`(source index, position)` pairs that `BrokenRadio.__init__` passes: pair
`(i, j)` sits at fractional offset `j * total / Lᵢ`, so `(i, j)` precedes
`(i', j')` when `j / Lᵢ < j' / Lᵢ'` (cross-multiplied to stay in `Nat`),
with ties broken by source index. -/
def eucOffsetRel (Ls : List Nat) (a b : Nat × Nat) : Prop :=
  a.2 * Ls.getD b.1 0 < b.2 * Ls.getD a.1 0 ∨
    (a.2 * Ls.getD b.1 0 = b.2 * Ls.getD a.1 0 ∧ a.1 ≤ b.1)

instance (Ls : List Nat) : DecidableRel (eucOffsetRel Ls) := by
  intro a b
  unfold eucOffsetRel
  infer_instance

/-- Modelled from the spec: `mu.utils.tools.euclidic_interlocking` — "given
sequences of lengths L₀, L₁, …, generate, for each source, target positions
at fractional offsets `j * total / Lᵢ` and merge all sources' target lists by
increasing offset, breaking ties by source index".  Specialised to the
call site in `BrokenRadio.__init__` (speech.py:225-231), where the `i`-th
input sequence is `[(i, 0), …, (i, Lᵢ - 1)]`. -/
def euclidicInterlocking (seqs : List (List (Nat × Nat))) : List (Nat × Nat) :=
  seqs.flatten.insertionSort (eucOffsetRel (seqs.map List.length))

/-- Inner loop of the `parallel` schedule (speech.py:220-223):
`tuple((next(self.source_decider), idx) for idx in range(n))`, consuming one
draw of the source-decider stream per event; the remaining iteration count is
the structural fuel. -/
def parallelKeysGo (d : InfIt Nat) (idx : Nat) : Nat → List (Nat × Nat)
  | 0 => []
  | fuel + 1 => ((d.next).1, idx) :: parallelKeysGo (d.next).2 (idx + 1) fuel

/-- The `parallel` schedule of `BrokenRadio.__init__`. -/
def parallelKeys (d : InfIt Nat) (n : Nat) : List (Nat × Nat) :=
  parallelKeysGo d 0 n

/-- The per-source key sequences passed to the interlocking at
speech.py:226-231: for the `idx`-th catalog, the pairs `(idx, i)` for every
sample position `i`. -/
def allKeys (pps : List (List String)) : List (List (Nat × Nat)) :=
  pps.enum.map (fun p => (List.range p.2.length).map (fun i => (p.1, i)))

/-- `duration_per_event` (speech.py:243-245): `dps - 1 + next(pause_per_event)`
for each scheduled sample duration, consuming one draw of the pause stream
per event. -/
def durationsWithPause (p : InfIt ℚ) : List ℚ → List ℚ
  | [] => []
  | dps :: rest => (dps - 1 + (p.next).1) :: durationsWithPause (p.next).2 rest

/-- The schedule-relevant state a fully constructed `BrokenRadio` instance
holds (speech.py:205-246). -/
structure Radio where
  pathPerSource : List (List String)
  sampleKeyPerEvent : List (Nat × Nat)
  samplePathPerEvent : List String
  durationPerSample : List ℚ
  durationPerEvent : List ℚ
  maximaNEvents : Nat
  maximaDuration : ℚ

/-- The construction pipeline of `BrokenRadio.__init__` up to and including
the schedule and the per-event durations (speech.py:205-246): detect files,
determine the event count of the interlocking policy — `min` of the catalog
lengths for `parallel` (Python's `min` fails on an empty sequence), their sum
for `sequential`, `ValueError` for anything else (speech.py:213-218) — build
the sample keys, resolve sample paths and durations, and add pauses.
`sndinfoDur` abstracts the external `pyo.sndinfo(path)[1]` duration metadata;
index lookups are modelled total with defaults (the keys built by both
policies stay in range).  `g` is the pre-existing global random state. -/
def buildRadio (g : Nat) (sources : List (String × List String))
    (orders : List String) (skips : List Nat) (sourceDecider : InfIt Nat)
    (interlocking : String) (pausePerEvent : InfIt ℚ)
    (sndinfoDur : String → ℚ) : Except Err Radio :=
  match detectFiles g sources orders skips with
  | Except.error e => Except.error e
  | Except.ok pps =>
    let mxE : Except Err Nat :=
      if interlocking = "parallel" then
        match (pps.map List.length).min? with
        | some m => Except.ok m
        | none => Except.error Err.EmptySequenceError
      else if interlocking = "sequential" then
        Except.ok (pps.map List.length).sum
      else
        Except.error (Err.ConfigError ("Unknown interlocking: " ++ interlocking ++ "."))
    match mxE with
    | Except.error e => Except.error e
    | Except.ok mx =>
      let keys :=
        if interlocking = "parallel" then parallelKeys sourceDecider mx
        else euclidicInterlocking (allKeys pps)
      let paths := keys.map (fun k => (pps.getD k.1 []).getD k.2 "")
      let dps := keys.map (fun k => sndinfoDur ((pps.getD k.1 []).getD k.2 ""))
      let dpe := durationsWithPause pausePerEvent dps
      Except.ok
        { pathPerSource := pps
          sampleKeyPerEvent := keys
          samplePathPerEvent := paths
          durationPerSample := dps
          durationPerEvent := dpe
          maximaNEvents := mx
          maximaDuration := dpe.sum }

/-- `BrokenRadio.__init__` including the final duration check
(speech.py:248-254): `assert self.maxima_duration > self.duration`, raising on
failure a `ValueError` whose message carries the requested duration and the
maximal available duration (the spec's `InsufficientMaterialError` with the
shortfall data). -/
def initRadio (g : Nat) (sources : List (String × List String))
    (orders : List String) (skips : List Nat) (sourceDecider : InfIt Nat)
    (duration : ℚ) (interlocking : String) (pausePerEvent : InfIt ℚ)
    (sndinfoDur : String → ℚ) : Except Err Radio :=
  match buildRadio g sources orders skips sourceDecider interlocking
      pausePerEvent sndinfoDur with
  | Except.error e => Except.error e
  | Except.ok r =>
    if duration < r.maximaDuration then Except.ok r
    else Except.error (Err.InsufficientMaterialError duration r.maximaDuration)

/-- Modelled from the spec: `mu.utils.tools.accumulate_from_zero` — the
running cumulative sum of a list, starting at `0` (so the result has one more
element than the input).  Implemented with an explicit accumulator. -/
def accFrom (acc : ℚ) : List ℚ → List ℚ
  | [] => [acc]
  | d :: ds => acc :: accFrom (acc + d) ds

/-- Modelled from the spec: running cumulative sum of `duration_per_event`
over the schedule order, starting from zero. -/
def accumulateFromZero (l : List ℚ) : List ℚ := accFrom 0 l

/-- Helper for `findClosestIndex`: the largest index of an element that does
not exceed `item`, or `none` when every element exceeds it. -/
def lastLeIndex (item : ℚ) : List ℚ → Option Nat
  | [] => none
  | x :: xs =>
    match lastLeIndex item xs with
    | some i => some (i + 1)
    | none => if x ≤ item then some 0 else none

/-- Modelled from the spec: `mu.utils.tools.find_closest_index` as the spec
describes its use — "returns the longest prefix whose cumulative sum does not
exceed `requested_duration` (if no exact match, take the closest index not
exceeding it)": the largest index whose value does not exceed `item`
(defaulting to `0` when no element qualifies). -/
def findClosestIndex (item : ℚ) (data : List ℚ) : Nat :=
  (lastLeIndex item data).getD 0

/-- `n_events` as computed at the start of `BrokenRadio.render`
(speech.py:336-338). -/
def nEvents (requested : ℚ) (durationPerEvent : List ℚ) : Nat :=
  findClosestIndex requested (accumulateFromZero durationPerEvent)

/-- The duration budgeter of `BrokenRadio.render` (speech.py:336-341):
truncate both `duration_per_event` and `sample_path_per_event` to the first
`n_events` entries. -/
def renderBudget (requested : ℚ) (durationPerEvent : List ℚ)
    (samplePathPerEvent : List String) : List ℚ × List String :=
  (durationPerEvent.take (nEvents requested durationPerEvent),
   samplePathPerEvent.take (nEvents requested durationPerEvent))

/-- The eight recognized effects of `BrokenRadio` (`__effects`,
speech.py:125-134). -/
def effectNames : List String :=
  ["original", "harmonizer", "filter", "distortion", "ringmodulation",
   "noise", "lorenz", "chenlee"]

/-- Modelled from the spec: `mu.utils.activity_levels.ActivityLevel` — a
per-effect stateful stochastic switch.  `gate` gives the decision as a
function of the activity level and of how many calls happened before
(`step`), which models whatever internal state the gate keeps. -/
structure ActivityLevel where
  gate : Nat → Nat → Bool
  step : Nat

/-- One gate call `self.activity_object_per_effect[effect](activity_lv)`
(speech.py:346-348): the decision for the current step, and the advanced
gate. -/
def ActivityLevel.call (g : ActivityLevel) (lv : Nat) : Bool × ActivityLevel :=
  (g.gate lv g.step, ⟨g.gate, g.step + 1⟩)

/-- The per-effect level tuple of `BrokenRadio.render` (speech.py:343-353):
for each event, call the effect's activity gate with its configured activity
level; when the gate fires, draw the next value of the effect's level stream
(`next(self.level_per_effect[effect])`), otherwise the level is `0` and the
stream is left untouched.  The event count is the structural fuel, since the
Python comprehension iterates over `duration_per_event` only for its
length. -/
def effectLevels (g : ActivityLevel) (lv : Nat) (s : InfIt ℚ) : Nat → List ℚ
  | 0 => []
  | n + 1 =>
    let c := g.call lv
    if c.1 then (s.next).1 :: effectLevels c.2 lv (s.next).2 n
    else 0 :: effectLevels c.2 lv s n

/-- The full `lv_per_effect` mapping (speech.py:343-353): each recognized
effect is paired with the levels drawn from its own gate, its own activity
level and its own level stream. -/
def lvPerEffect (gates : String → ActivityLevel) (lvs : String → Nat)
    (streams : String → InfIt ℚ) (n : Nat) : List (String × List ℚ) :=
  effectNames.map (fun e => (e, effectLevels (gates e) (lvs e) (streams e) n))

/-- How many of the first `i` gate decisions fired. -/
def cntTrue (dec : Nat → Bool) : Nat → Nat
  | 0 => 0
  | i + 1 => (if dec 0 then 1 else 0) + cntTrue (fun j => dec (j + 1)) i

/-- Modelled from the spec: one draw of `random.uniform(0.2, 0.4)` from the
seeded ambient-noise stream — a deterministic pseudorandom rational in
`[0.2, 0.4]` together with the advanced generator state. -/
def uniformDraw (st : Nat) : ℚ × Nat :=
  (1 / 5 + ((lcg st % 201 : Nat) : ℚ) / 1000, lcg st)

/-- The ambient-noise draws of `render` (speech.py:355-357): one uniform draw
per event, threading the generator state; the event count is the structural
fuel. -/
def ambientDrawsGo (st : Nat) : Nat → List ℚ
  | 0 => []
  | n + 1 => (uniformDraw st).1 :: ambientDrawsGo (uniformDraw st).2 n

/-- `ambient_noise_lv_per_event` before pairing: the draws from the generator
freshly seeded with 1 (`random_ambient_noise_lv.seed(1)`, speech.py:334). -/
def ambientDraws (n : Nat) : List ℚ := ambientDrawsGo (pySeed 1) n

/-- The ambient-noise ramp endpoints (speech.py:358-363):
`zip((0,) + draws, draws)` — event `i` ramps from the previous event's
trailing value (`0` for the first event) to its own trailing draw. -/
def ambientPairs (n : Nat) : List (ℚ × ℚ) :=
  List.zip (0 :: ambientDraws n) (ambientDraws n)

/-- Closed form of the `i`-th ambient draw: the value of the seeded stream
after `i` generator steps. -/
def uniformStreamVal (i : Nat) : ℚ := (uniformDraw (lcgIter (pySeed 1) i)).1

/-- A Python `dict` with string keys: insertion-ordered key/value pairs. -/
structure PyDict (α : Type) where
  entries : List (String × α)

/-- The Python membership test `key in dict`. -/
def PyDict.hasKey (d : PyDict α) (k : String) : Bool :=
  d.entries.any (fun e => e.1 == k)

/-- `dict.update({k: v})`: replace the value in place when the key exists,
append the new entry otherwise. -/
def PyDict.updateKV (d : PyDict α) (k : String) (v : α) : PyDict α :=
  if d.hasKey k then ⟨d.entries.map (fun e => if e.1 == k then (k, v) else e)⟩
  else ⟨d.entries ++ [(k, v)]⟩

/-- One iteration of the default-filling loop of `BrokenRadio.__init__`
(speech.py:195-200): insert activity level `0` and the constant level stream
`infit.Cycle((1,))` for the effect when missing. -/
def fillStep (p : PyDict Nat × PyDict (InfIt ℚ)) (e : String) :
    PyDict Nat × PyDict (InfIt ℚ) :=
  (if p.1.hasKey e then p.1 else p.1.updateKV e 0,
   if p.2.hasKey e then p.2 else p.2.updateKV e (InfIt.cycle [1] 1))

/-- The whole default-filling loop (speech.py:195-200), over the recognized
effects. -/
def fillEffects (a : PyDict Nat) (l : PyDict (InfIt ℚ)) :
    PyDict Nat × PyDict (InfIt ℚ) :=
  effectNames.foldl fillStep (a, l)

/-- A heap of Python dict objects, identified by reference (list index).
Models Python object identity for the two mutable default-argument dicts of
`BrokenRadio.__init__` (speech.py:142-143), which are created once at
function-definition time and shared by every call that omits the
corresponding argument. -/
structure Heap where
  aDicts : List (PyDict Nat)
  lDicts : List (PyDict (InfIt ℚ))

/-- Reference of the shared default `activity_lv_per_effect` object. -/
def defaultActivityRef : Nat := 0

/-- Reference of the shared default `level_per_effect` object. -/
def defaultLevelRef : Nat := 0

/-- The heap at definition time: both shared default dicts exist and are
empty (`activity_lv_per_effect: dict = {\x7d`, `level_per_effect: dict = {\x7d`). -/
def initialHeap : Heap := ⟨[⟨[]⟩], [⟨[]⟩]⟩

/-- The configuration effect of one `BrokenRadio` construction
(speech.py:136-203) in the heap model: when `activity_lv_per_effect` or
`level_per_effect` is not passed, the shared default object's reference is
used; the loop at speech.py:195-200 mutates the referenced dict in place;
and speech.py:202-203 stores the *references* (not copies) on the instance.
Returns the updated heap together with the pair of references the instance
holds. -/
def constructRadioDicts (h : Heap) (aArg lArg : Option Nat) :
    Heap × Nat × Nat :=
  let aRef := aArg.getD defaultActivityRef
  let lRef := lArg.getD defaultLevelRef
  let fl := fillEffects (h.aDicts.getD aRef ⟨[]⟩) (h.lDicts.getD lRef ⟨[]⟩)
  (⟨h.aDicts.set aRef fl.1, h.lDicts.set lRef fl.2⟩, aRef, lRef)

/-- A gate that fires on even steps, for witnesses. -/
def gateEx : ActivityLevel := ⟨fun _ step => step % 2 == 0, 0⟩

/-- A level stream enumerating the naturals, for witnesses. -/
def streamEx : InfIt ℚ := ⟨fun k => (k : ℚ), 0⟩

/-- A concrete source-decider stream for witnesses: round-robin over one source. -/
def exDecider : InfIt Nat := InfIt.cycle [0] 0

/-- A concrete pause stream for witnesses: a constant `0` pause. -/
def exPause : InfIt ℚ := InfIt.cycle [0] 0

/-- Concrete duration metadata for witnesses: every sample lasts 5 seconds. -/
def exSnd : String → ℚ := fun _ => 5

/-- A concrete one-source input for witnesses. -/
def exSources : List (String × List String) := [("", ["a.wav"])]

/-- The radio the witness inputs build (fields written in unreduced form so
that the construction is definitionally checkable). -/
def radioEx : Radio :=
  { pathPerSource := [["a.wav"]]
    sampleKeyPerEvent := [(0, 0)]
    samplePathPerEvent := ["a.wav"]
    durationPerSample := [5]
    durationPerEvent := [5 - 1 + 0]
    maximaNEvents := 1
    maximaDuration := 5 - 1 + 0 + 0 }

theorem accFrom_length (l : List ℚ) (acc : ℚ) : (accFrom acc l).length = l.length + 1 := by
  induction l generalizing acc with
  | nil => rfl
  | cons d ds ih => simp [accFrom, ih]

theorem accFrom_getD (l : List ℚ) (acc : ℚ) (i : Nat) (h : i ≤ l.length) :
    (accFrom acc l).getD i 0 = acc + (l.take i).sum := by
  induction l generalizing acc i with
  | nil =>
    have hi : i = 0 := Nat.le_zero.mp h
    subst hi
    simp [accFrom]
  | cons d ds ih =>
    cases i with
    | zero => simp [accFrom]
    | succ j =>
      have hj : j ≤ ds.length := by simpa using h
      show (acc :: accFrom (acc + d) ds).getD (j + 1) 0 = _
      rw [List.getD_cons_succ, ih (acc + d) j hj]
      simp [List.take_succ_cons, add_assoc]

theorem lastLeIndex_some_spec (item : ℚ) (l : List ℚ) (n : Nat)
    (h : lastLeIndex item l = some n) :
    n < l.length ∧ l.getD n 0 ≤ item := by
  induction l generalizing n with
  | nil => simp [lastLeIndex] at h
  | cons x xs ih =>
    rw [lastLeIndex] at h
    cases hx : lastLeIndex item xs with
    | some i =>
      rw [hx] at h
      obtain ⟨hi, hv⟩ := ih i hx
      cases h
      exact ⟨by simpa using Nat.succ_lt_succ hi, by simpa using hv⟩
    | none =>
      rw [hx] at h
      by_cases hle : x ≤ item
      · simp only [hle, if_pos] at h
        cases h
        exact ⟨by simp, by simpa using hle⟩
      · simp [hle] at h

theorem lastLeIndex_none_spec (item : ℚ) (l : List ℚ)
    (h : lastLeIndex item l = none) :
    ∀ m, m < l.length → ¬ (l.getD m 0 ≤ item) := by
  induction l with
  | nil => intro m hm; simp at hm
  | cons x xs ih =>
    rw [lastLeIndex] at h
    cases hx : lastLeIndex item xs with
    | some i => rw [hx] at h; cases h
    | none =>
      rw [hx] at h
      intro m hm
      cases m with
      | zero =>
        intro hle
        simp only [List.getD_cons_zero] at hle
        simp [hle] at h
      | succ j =>
        have hj : j < xs.length := by simpa using hm
        simpa using ih hx j hj

theorem lastLeIndex_maximal (item : ℚ) (l : List ℚ) (n : Nat)
    (h : lastLeIndex item l = some n) :
    ∀ m, m < l.length → l.getD m 0 ≤ item → m ≤ n := by
  induction l generalizing n with
  | nil => intro m hm; simp at hm
  | cons x xs ih =>
    rw [lastLeIndex] at h
    cases hx : lastLeIndex item xs with
    | some i =>
      rw [hx] at h
      cases h
      intro m hm hv
      cases m with
      | zero => exact Nat.zero_le _
      | succ j =>
        have hj : j < xs.length := by simpa using hm
        have := ih i hx j hj (by simpa using hv)
        omega
    | none =>
      rw [hx] at h
      by_cases hle : x ≤ item
      · simp only [hle, if_pos] at h
        cases h
        intro m hm hv
        cases m with
        | zero => exact Nat.le_refl 0
        | succ j =>
          have hj : j < xs.length := by simpa using hm
          exact absurd (by simpa using hv) (lastLeIndex_none_spec item xs hx j hj)
      · simp [hle] at h

theorem lastLeIndex_cons_le_isSome (item x : ℚ) (xs : List ℚ) (h : x ≤ item) :
    ∃ n, lastLeIndex item (x :: xs) = some n := by
  rw [lastLeIndex]
  cases hx : lastLeIndex item xs with
  | some i => exact ⟨i + 1, rfl⟩
  | none => exact ⟨0, by simp [h]⟩

theorem seededShuffle_perm (st : Nat) (l : List α) :
    ((seededShuffle st l).1).Perm l := by
  have h := (List.perm_insertionSort (shuffleRel st) l.enum).map Prod.snd
  simpa [seededShuffle, List.enum_map_snd] using h

/-- **C5, counterexample.**  The claim states that the directory listing is
filtered to the supported extension *before* sorting and skipping, so that the
skip count drops only supported sample files.  The code filters *last*
(speech.py:302-312): with raw listing `["a.txt", "b.wav"]` and skip count `1`,
the code drops `"a.txt"` and keeps `["b.wav"]`, while the spec's pipeline
would drop `"b.wav"` and return `[]`. -/
theorem catalog_filter_order_counterexample :
    detectFiles 0 [("", ["a.txt", "b.wav"])] ["original"] [1] ≠
      Except.ok [specCatalogSource (pySeed 10) "" ["a.txt", "b.wav"] "original" 1] := by
  intro h
  have h1 : detectFiles 0 [("", ["a.txt", "b.wav"])] ["original"] [1] =
      Except.ok [["b.wav"]] := by rfl
  have h2 : specCatalogSource (pySeed 10) "" ["a.txt", "b.wav"] "original" 1 =
      ([] : List String) := by rfl
  rw [h1, h2] at h
  simp at h

/-- **C5 (amended).**  For every source directory, the catalog is built by
natural-sorting the raw directory listing, dropping the first `skip` entries,
applying the per-source ordering policy (`reverse` reverses the remaining
order; `shuffle` applies a fixed-seed pseudorandom permutation of it), and
only *then* filtering to the supported sample extension and prefixing the
source path; in particular the skip count drops entries of the raw listing,
including unsupported files. -/
theorem catalog_pipeline_order :
    (∀ (st : Nat) (path : String) (listing : List String) (skip : Nat),
      detectFilesGo st [(path, listing)] ["original"] [skip] =
        Except.ok [(wavFilter ((natsorted listing).drop skip)).map
          (fun f => path ++ f)] ∧
      detectFilesGo st [(path, listing)] ["reverse"] [skip] =
        Except.ok [(wavFilter ((natsorted listing).drop skip).reverse).map
          (fun f => path ++ f)] ∧
      detectFilesGo st [(path, listing)] ["shuffle"] [skip] =
        Except.ok [(wavFilter (seededShuffle st ((natsorted listing).drop skip)).1).map
          (fun f => path ++ f)]) ∧
    (∀ (st : Nat) (l : List String), ((seededShuffle st l).1).Perm l) := by
  constructor
  · intro st path listing skip
    refine ⟨rfl, rfl, rfl⟩
  · exact fun st l => seededShuffle_perm st l

/-- **C1.** The duration budgeter of `BrokenRadio.render` returns the longest
prefix of the schedule whose cumulative duration does not exceed the requested
duration: the chosen event count never exceeds the schedule length, the kept
events' total duration never strictly exceeds the requested duration, and any
prefix whose total duration stays within the requested duration is no longer
than the kept one (so every event before the cut point is included). -/
theorem render_budget_longest_prefix (requested : ℚ) (durs : List ℚ)
    (paths : List String) (hreq : 0 ≤ requested) :
    nEvents requested durs ≤ durs.length ∧
    ((renderBudget requested durs paths).1).sum ≤ requested ∧
    (∀ m, m ≤ durs.length → (durs.take m).sum ≤ requested →
      m ≤ nEvents requested durs) := by
  have hacc : accumulateFromZero durs = accFrom 0 durs := rfl
  obtain ⟨n, hn⟩ :
      ∃ n, lastLeIndex requested (accumulateFromZero durs) = some n := by
    rw [hacc]
    cases durs with
    | nil => exact lastLeIndex_cons_le_isSome requested 0 [] hreq
    | cons d ds => exact lastLeIndex_cons_le_isSome requested 0 _ hreq
  have hne : nEvents requested durs = n := by
    simp [nEvents, findClosestIndex, hn]
  obtain ⟨hlt, hval⟩ := lastLeIndex_some_spec requested _ n hn
  have hlen : (accumulateFromZero durs).length = durs.length + 1 := by
    rw [hacc]; exact accFrom_length durs 0
  have hnle : n ≤ durs.length := by omega
  have hsum : (durs.take n).sum ≤ requested := by
    have := accFrom_getD durs 0 n hnle
    rw [← hacc] at this
    rw [this] at hval
    simpa using hval
  refine ⟨by omega, ?_, ?_⟩
  · simpa [renderBudget, hne] using hsum
  · intro m hm hms
    have hmlt : m < (accumulateFromZero durs).length := by omega
    have hgd : (accumulateFromZero durs).getD m 0 = (durs.take m).sum := by
      have := accFrom_getD durs 0 m hm
      rw [← hacc] at this
      simpa using this
    have := lastLeIndex_maximal requested _ n hn m hmlt (by rw [hgd]; exact hms)
    omega

/-- Witness for **C1** at a concrete input: with requested duration `5` and
event durations `[3, 2, 4]` the budgeter keeps exactly the first two events. -/
theorem render_budget_longest_prefix_witness :
    (0 : ℚ) ≤ 5 ∧
    (nEvents 5 [3, 2, 4] ≤ ([3, 2, 4] : List ℚ).length ∧
     ((renderBudget 5 [3, 2, 4] ["a", "b", "c"]).1).sum ≤ 5 ∧
     (∀ m, m ≤ ([3, 2, 4] : List ℚ).length →
        (([3, 2, 4] : List ℚ).take m).sum ≤ 5 → m ≤ nEvents 5 [3, 2, 4])) :=
  ⟨by norm_num, render_budget_longest_prefix 5 [3, 2, 4] ["a", "b", "c"] (by norm_num)⟩

/-- **C9.** Construction is a deterministic function of its inputs: the
result (catalog orderings including the fixed-seed shuffle, event keys,
sample paths and per-event durations) does not depend on the pre-existing
state of the global random generator, because `detect_files` re-seeds it with
the fixed seed `10` before any draw; hence two runs on the same inputs build
identical schedules. -/
theorem construction_deterministic (g g' : Nat)
    (sources : List (String × List String)) (orders : List String)
    (skips : List Nat) (sourceDecider : InfIt Nat) (duration : ℚ)
    (interlocking : String) (pausePerEvent : InfIt ℚ)
    (sndinfoDur : String → ℚ) :
    initRadio g sources orders skips sourceDecider duration interlocking
        pausePerEvent sndinfoDur =
      initRadio g' sources orders skips sourceDecider duration interlocking
        pausePerEvent sndinfoDur := rfl

/-- **C4.** Given a configuration whose schedule builds successfully,
construction succeeds exactly when the total of the scheduled event durations
strictly exceeds the requested duration, and fails with
`InsufficientMaterialError` (carrying the requested and the available
duration) exactly when the total is less than or equal to the requested
duration — equality is a failure. -/
theorem insufficient_material_check (g : Nat)
    (sources : List (String × List String)) (orders : List String)
    (skips : List Nat) (sourceDecider : InfIt Nat) (duration : ℚ)
    (interlocking : String) (pausePerEvent : InfIt ℚ)
    (sndinfoDur : String → ℚ) (r : Radio)
    (h : buildRadio g sources orders skips sourceDecider interlocking
      pausePerEvent sndinfoDur = Except.ok r) :
    (initRadio g sources orders skips sourceDecider duration interlocking
        pausePerEvent sndinfoDur = Except.ok r ↔
      duration < r.maximaDuration) ∧
    (initRadio g sources orders skips sourceDecider duration interlocking
        pausePerEvent sndinfoDur =
        Except.error (Err.InsufficientMaterialError duration r.maximaDuration) ↔
      r.maximaDuration ≤ duration) := by
  have e1 : initRadio g sources orders skips sourceDecider duration interlocking
      pausePerEvent sndinfoDur =
      if duration < r.maximaDuration then Except.ok r
      else Except.error (Err.InsufficientMaterialError duration r.maximaDuration) := by
    unfold initRadio
    rw [h]
  rw [e1]
  by_cases hd : duration < r.maximaDuration
  · rw [if_pos hd]
    refine ⟨⟨fun _ => hd, fun _ => rfl⟩, ⟨fun hc => Except.noConfusion hc, ?_⟩⟩
    intro hle
    exact absurd hd (not_lt.mpr hle)
  · rw [if_neg hd]
    refine ⟨⟨fun hc => Except.noConfusion hc, fun hlt => absurd hlt hd⟩,
      ⟨fun _ => not_lt.mp hd, fun _ => rfl⟩⟩

/-- Witness for **C4**: a one-sample source with sample duration 5, pause 0
(event duration 4) and requested duration 3 builds successfully; the theorem
then characterises success and failure of construction. -/
theorem insufficient_material_check_witness :
    buildRadio 0 exSources ["original"] [0] exDecider "parallel" exPause exSnd =
      Except.ok radioEx ∧
    ((initRadio 0 exSources ["original"] [0] exDecider 3 "parallel" exPause exSnd =
        Except.ok radioEx ↔ (3 : ℚ) < radioEx.maximaDuration) ∧
     (initRadio 0 exSources ["original"] [0] exDecider 3 "parallel" exPause exSnd =
        Except.error (Err.InsufficientMaterialError 3 radioEx.maximaDuration) ↔
      radioEx.maximaDuration ≤ 3)) :=
  ⟨rfl, insufficient_material_check 0 exSources ["original"] [0] exDecider 3
    "parallel" exPause exSnd radioEx rfl⟩

theorem detectFilesGo_invalid_order (st : Nat) :
    ∀ (ss : List (String × List String)) (os : List String) (ks : List Nat)
      (i : Nat), i < ss.length → i < os.length → i < ks.length →
      os.getD i "" ∉ (["original", "reverse", "shuffle"] : List String) →
      ∃ msg, detectFilesGo st ss os ks = Except.error (Err.ConfigError msg) := by
  intro ss
  induction ss generalizing st with
  | nil => intro os ks i hi _ _ _; simp at hi
  | cons s ss ih =>
    intro os ks i hi ho hk hbad
    cases os with
    | nil => simp at ho
    | cons o os =>
      cases ks with
      | nil => simp at hk
      | cons k ks =>
        obtain ⟨path, listing⟩ := s
        by_cases hvalid : o ∈ (["original", "reverse", "shuffle"] : List String)
        · cases i with
          | zero => simp at hbad; exact absurd hvalid (by simpa using hbad)
          | succ j =>
            have hj : j < ss.length := by simpa using hi
            have hjo : j < os.length := by simpa using ho
            have hjk : j < ks.length := by simpa using hk
            have hjb : os.getD j "" ∉ (["original", "reverse", "shuffle"] : List String) := by
              simpa using hbad
            set st' := (if o = "reverse" then (((natsorted listing).drop k).reverse, st)
              else if o = "shuffle" then seededShuffle st ((natsorted listing).drop k)
              else ((natsorted listing).drop k, st)).2 with hst'
            obtain ⟨msg, hmsg⟩ := ih st' os ks j hj hjo hjk hjb
            refine ⟨msg, ?_⟩
            rw [detectFilesGo, if_pos hvalid]
            dsimp only
            rw [← hst', hmsg]
        · exact ⟨"Unknown order: " ++ o ++ ".",
            by rw [detectFilesGo, if_neg hvalid]⟩

theorem detectFilesGo_error_shape (st : Nat) :
    ∀ (ss : List (String × List String)) (os : List String) (ks : List Nat)
      (e : Err), detectFilesGo st ss os ks = Except.error e →
      ∃ msg, e = Err.ConfigError msg := by
  intro ss
  induction ss generalizing st with
  | nil => intro os ks e he; simp [detectFilesGo] at he
  | cons s ss ih =>
    intro os ks e he
    cases os with
    | nil => simp [detectFilesGo] at he
    | cons o os =>
      cases ks with
      | nil => simp [detectFilesGo] at he
      | cons k ks =>
        obtain ⟨path, listing⟩ := s
        by_cases hvalid : o ∈ (["original", "reverse", "shuffle"] : List String)
        · rw [detectFilesGo, if_pos hvalid] at he
          dsimp only at he
          set st' := (if o = "reverse" then (((natsorted listing).drop k).reverse, st)
            else if o = "shuffle" then seededShuffle st ((natsorted listing).drop k)
            else ((natsorted listing).drop k, st)).2 with hst'
          cases hrec : detectFilesGo st' ss os ks with
          | ok rest => rw [hrec] at he; exact Except.noConfusion he
          | error e2 =>
            rw [hrec] at he
            injection he with h2
            subst h2
            exact ih st' os ks e2 hrec
        · rw [detectFilesGo, if_neg hvalid] at he
          cases he
          exact ⟨"Unknown order: " ++ o ++ ".", rfl⟩

/-- **C6.** If some zipped source position carries an ordering policy outside
`{original, reverse, shuffle}`, or the interlocking policy is outside
`{parallel, sequential}`, construction fails with the typed configuration
error (`ConfigError`, a `ValueError` in the source), raised before any
schedule is produced. -/
theorem config_error_on_unknown_policy (g : Nat)
    (sources : List (String × List String)) (orders : List String)
    (skips : List Nat) (sourceDecider : InfIt Nat) (duration : ℚ)
    (interlocking : String) (pausePerEvent : InfIt ℚ)
    (sndinfoDur : String → ℚ)
    (h : (∃ i, i < sources.length ∧ i < orders.length ∧ i < skips.length ∧
            orders.getD i "" ∉ (["original", "reverse", "shuffle"] : List String)) ∨
         (interlocking ≠ "parallel" ∧ interlocking ≠ "sequential")) :
    ∃ msg, initRadio g sources orders skips sourceDecider duration interlocking
      pausePerEvent sndinfoDur = Except.error (Err.ConfigError msg) := by
  rcases h with ⟨i, hi, ho, hk, hbad⟩ | ⟨hp, hs⟩
  · obtain ⟨msg, hmsg⟩ :=
      detectFilesGo_invalid_order (pySeed 10) sources orders skips i hi ho hk hbad
    have hb : buildRadio g sources orders skips sourceDecider interlocking
        pausePerEvent sndinfoDur = Except.error (Err.ConfigError msg) := by
      unfold buildRadio detectFiles
      rw [hmsg]
    refine ⟨msg, ?_⟩
    unfold initRadio
    rw [hb]
  · cases hdf : detectFiles g sources orders skips with
    | error e =>
      obtain ⟨msg, rfl⟩ := detectFilesGo_error_shape (pySeed 10) sources orders skips e hdf
      have hb : buildRadio g sources orders skips sourceDecider interlocking
          pausePerEvent sndinfoDur = Except.error (Err.ConfigError msg) := by
        unfold buildRadio
        rw [hdf]
      refine ⟨msg, ?_⟩
      unfold initRadio
      rw [hb]
    | ok pps =>
      have hb : buildRadio g sources orders skips sourceDecider interlocking
          pausePerEvent sndinfoDur =
          Except.error (Err.ConfigError ("Unknown interlocking: " ++ interlocking ++ ".")) := by
        unfold buildRadio
        rw [hdf]
        simp [hp, hs]
      refine ⟨"Unknown interlocking: " ++ interlocking ++ ".", ?_⟩
      unfold initRadio
      rw [hb]

theorem parallelKeysGo_length (d : InfIt Nat) (idx fuel : Nat) :
    (parallelKeysGo d idx fuel).length = fuel := by
  induction fuel generalizing d idx with
  | zero => rfl
  | succ n ih => simp [parallelKeysGo, ih]

theorem parallelKeysGo_getD (d : InfIt Nat) (idx fuel i : Nat) (h : i < fuel) :
    (parallelKeysGo d idx fuel).getD i (0, 0) = (d.f (d.idx + i), idx + i) := by
  induction fuel generalizing d idx i with
  | zero => omega
  | succ n ih =>
    cases i with
    | zero => simp [parallelKeysGo, InfIt.next]
    | succ j =>
      have hj : j < n := by omega
      have hrec := ih ⟨d.f, d.idx + 1⟩ (idx + 1) j hj
      simp only [InfIt.next] at hrec
      simp only [parallelKeysGo, InfIt.next, List.getD_cons_succ]
      rw [show d.idx + 1 + j = d.idx + (j + 1) from by omega,
        show idx + 1 + j = idx + (j + 1) from by omega] at hrec
      exact hrec

/-- **C3.** Under the `parallel` interlocking policy, a successfully built
schedule has as many events as the *minimum* per-source sample count, and the
`i`-th event key pairs the `i`-th draw of the cyclic source-decider stream
with the sample index `i` (so sample indices increase monotonically with the
event position). -/
theorem parallel_schedule (g : Nat) (sources : List (String × List String))
    (orders : List String) (skips : List Nat) (d : InfIt Nat) (pp : InfIt ℚ)
    (si : String → ℚ) (r : Radio) (hne : sources ≠ [])
    (h : buildRadio g sources orders skips d "parallel" pp si = Except.ok r) :
    (r.pathPerSource.map List.length).min? = some r.sampleKeyPerEvent.length ∧
    ∀ i, i < r.sampleKeyPerEvent.length →
      r.sampleKeyPerEvent.getD i (0, 0) = (d.f (d.idx + i), i) := by
  unfold buildRadio at h
  cases hdf : detectFiles g sources orders skips with
  | error e => rw [hdf] at h; exact Except.noConfusion h
  | ok pps =>
    rw [hdf] at h
    dsimp only at h
    simp only [reduceIte] at h
    cases hmin : (pps.map List.length).min? with
    | none =>
      rw [hmin] at h
      exact Except.noConfusion h
    | some m =>
      rw [hmin] at h
      dsimp only at h
      injection h with h2
      subst h2
      dsimp only
      constructor
      · rw [parallelKeys, parallelKeysGo_length]
        exact hmin
      · intro i hi
        rw [parallelKeys, parallelKeysGo_length] at hi
        simpa using parallelKeysGo_getD d 0 m i hi

/-- Witness for **C3**: one source with one sample under `parallel` yields the
single event key `(0, 0)` from the round-robin decider. -/
theorem parallel_schedule_witness :
    exSources ≠ [] ∧
    buildRadio 0 exSources ["original"] [0] exDecider "parallel" exPause exSnd =
      Except.ok radioEx ∧
    ((radioEx.pathPerSource.map List.length).min? =
        some radioEx.sampleKeyPerEvent.length ∧
      ∀ i, i < radioEx.sampleKeyPerEvent.length →
        radioEx.sampleKeyPerEvent.getD i (0, 0) =
          (exDecider.f (exDecider.idx + i), i)) :=
  ⟨by decide, rfl,
    parallel_schedule 0 exSources ["original"] [0] exDecider exPause exSnd
      radioEx (by decide) rfl⟩

theorem euclidicInterlocking_perm (seqs : List (List (Nat × Nat))) :
    (euclidicInterlocking seqs).Perm seqs.flatten :=
  List.perm_insertionSort _ _

theorem allKeys_map_length (pps : List (List String)) :
    (allKeys pps).map List.length = pps.map List.length := by
  unfold allKeys
  rw [List.map_map]
  have h1 : (List.length ∘ fun p : Nat × List String =>
      (List.range p.2.length).map (fun i => (p.1, i))) =
      (List.length ∘ (Prod.snd : Nat × List String → List String)) := by
    funext p
    simp
  rw [h1, ← List.map_map, List.enum_map_snd]

theorem allKeys_flatten_nodup (pps : List (List String)) :
    (allKeys pps).flatten.Nodup := by
  rw [List.nodup_flatten]
  constructor
  · intro l hl
    unfold allKeys at hl
    rw [List.mem_map] at hl
    obtain ⟨p, _, rfl⟩ := hl
    refine List.Nodup.map ?_ (List.nodup_range _)
    intro a b hab
    simpa using hab
  · unfold allKeys
    rw [List.pairwise_map]
    have h0 : (pps.enum.map Prod.fst).Pairwise (· < ·) := by
      rw [List.enum_map_fst]
      exact List.pairwise_lt_range _
    have hlt := List.pairwise_map.mp h0
    refine hlt.imp ?_
    intro p q hpq a ha hb
    rw [List.mem_map] at ha hb
    obtain ⟨x, _, rfl⟩ := ha
    obtain ⟨y, _, hyx⟩ := hb
    injection hyx with h1 h2
    omega

theorem mem_flatten_allKeys (pps : List (List String)) (i j : Nat)
    (hi : i < pps.length) (hj : j < (pps.getD i []).length) :
    (i, j) ∈ (allKeys pps).flatten := by
  rw [List.mem_flatten]
  refine ⟨(List.range (pps.getD i []).length).map (fun x => (i, x)), ?_, ?_⟩
  · unfold allKeys
    rw [List.mem_map]
    refine ⟨(i, pps.getD i []), ?_, rfl⟩
    have hg : pps.getD i [] = pps[i] := by
      simp [List.getD_eq_getElem?_getD, List.getElem?_eq_getElem hi]
    rw [hg, List.mk_mem_enum_iff_getElem?, List.getElem?_eq_getElem hi]
  · exact List.mem_map.mpr ⟨j, List.mem_range.mpr hj, rfl⟩

theorem beq_prodNat_eq_decide (x a : Nat × Nat) :
    (x == a) = decide (x = a) := by
  by_cases h : x = a
  · subst h
    simp
  · simp [h]

theorem count_prodNat_with_decEq (a : Nat × Nat) (l : List (Nat × Nat)) :
    l.count a = @List.count (Nat × Nat) instBEqOfDecidableEq a l := by
  induction l with
  | nil => rfl
  | cons x xs ih =>
    rw [List.count_cons, @List.count_cons _ instBEqOfDecidableEq, ih,
      beq_prodNat_eq_decide x a]
    rfl

/-- **C2.** Under the `sequential` interlocking policy, a successfully built
schedule has as many events as the *sum* of the per-source sample counts, and
every key `(source index, sample index)` whose sample index lies below that
source's catalog length appears exactly once in the schedule. -/
theorem sequential_schedule (g : Nat) (sources : List (String × List String))
    (orders : List String) (skips : List Nat) (d : InfIt Nat) (pp : InfIt ℚ)
    (si : String → ℚ) (r : Radio) (hne : sources ≠ [])
    (h : buildRadio g sources orders skips d "sequential" pp si = Except.ok r) :
    r.sampleKeyPerEvent.length = (r.pathPerSource.map List.length).sum ∧
    ∀ i j, i < r.pathPerSource.length → j < (r.pathPerSource.getD i []).length →
      r.sampleKeyPerEvent.count (i, j) = 1 := by
  unfold buildRadio at h
  cases hdf : detectFiles g sources orders skips with
  | error e => rw [hdf] at h; exact Except.noConfusion h
  | ok pps =>
    rw [hdf] at h
    dsimp only at h
    simp only [reduceIte] at h
    injection h with h2
    subst h2
    dsimp only
    rw [if_neg (by decide : ¬ ("sequential" : String) = "parallel")]
    have hperm := euclidicInterlocking_perm (allKeys pps)
    constructor
    · rw [hperm.length_eq, List.length_flatten, allKeys_map_length]
    · intro i j hi hj
      rw [count_prodNat_with_decEq, hperm.count_eq (i, j)]
      exact List.count_eq_one_of_mem (allKeys_flatten_nodup pps)
        (mem_flatten_allKeys pps i j hi hj)

/-- Witness for **C2**: one source with one sample under `sequential` yields
the one-event schedule `[(0, 0)]`, whose length is the total sample count and
in which the key `(0, 0)` occurs exactly once. -/
theorem sequential_schedule_witness :
    exSources ≠ [] ∧
    buildRadio 0 exSources ["original"] [0] exDecider "sequential" exPause exSnd =
      Except.ok radioEx ∧
    (radioEx.sampleKeyPerEvent.length =
        (radioEx.pathPerSource.map List.length).sum ∧
      ∀ i j, i < radioEx.pathPerSource.length →
        j < (radioEx.pathPerSource.getD i []).length →
        radioEx.sampleKeyPerEvent.count (i, j) = 1) :=
  ⟨by decide, rfl,
    sequential_schedule 0 exSources ["original"] [0] exDecider exPause exSnd
      radioEx (by decide) rfl⟩

/-- Witness for **C6**: the unrecognized ordering policy `"foo"` at source
position 0 makes construction fail with a `ConfigError`. -/
theorem config_error_on_unknown_policy_witness :
    ∃ msg, initRadio 0 [("", ([] : List String))] ["foo"] [0] exDecider 3
      "parallel" exPause exSnd = Except.error (Err.ConfigError msg) :=
  config_error_on_unknown_policy 0 [("", [])] ["foo"] [0] exDecider 3 "parallel"
    exPause exSnd
    (Or.inl ⟨0, by decide, by decide, by decide, by decide⟩)

theorem effectLevels_length (lv : Nat) :
    ∀ (n : Nat) (g : ActivityLevel) (s : InfIt ℚ),
      (effectLevels g lv s n).length = n := by
  intro n
  induction n with
  | zero => intro g s; rfl
  | succ n ih =>
    intro g s
    by_cases hc : g.gate lv g.step = true
    · simp [effectLevels, ActivityLevel.call, hc, ih]
    · simp [effectLevels, ActivityLevel.call, hc, ih]

theorem effectLevels_getD (lv : Nat) :
    ∀ (n : Nat) (g : ActivityLevel) (s : InfIt ℚ) (i : Nat), i < n →
      (effectLevels g lv s n).getD i 0 =
        if g.gate lv (g.step + i) then
          s.f (s.idx + cntTrue (fun j => g.gate lv (g.step + j)) i)
        else 0 := by
  intro n
  induction n with
  | zero => intro g s i hi; omega
  | succ n ih =>
    intro g s i hi
    by_cases hc : g.gate lv g.step = true
    · cases i with
      | zero => simp [effectLevels, ActivityLevel.call, InfIt.next, hc, cntTrue]
      | succ j =>
        have hj : j < n := by omega
        have hrec := ih ⟨g.gate, g.step + 1⟩ ⟨s.f, s.idx + 1⟩ j hj
        simp only [effectLevels, ActivityLevel.call, InfIt.next, hc, if_true,
          List.getD_cons_succ]
        have hfun : (fun j2 => g.gate lv (g.step + 1 + j2)) =
            (fun j2 => g.gate lv (g.step + (j2 + 1))) := by
          funext j2
          rw [show g.step + 1 + j2 = g.step + (j2 + 1) from by omega]
        simp only [hfun, show g.step + 1 + j = g.step + (j + 1) from by omega] at hrec
        rw [hrec]
        by_cases h2 : g.gate lv (g.step + (j + 1)) = true
        · rw [if_pos h2, if_pos h2]
          congr 1
          rw [cntTrue]
          simp only [Nat.add_zero, hc, if_true]
          omega
        · rw [if_neg h2, if_neg h2]
    · cases i with
      | zero => simp [effectLevels, ActivityLevel.call, InfIt.next, hc, cntTrue]
      | succ j =>
        have hj : j < n := by omega
        have hrec := ih ⟨g.gate, g.step + 1⟩ s j hj
        simp only [effectLevels, ActivityLevel.call, InfIt.next, hc, if_false,
          Bool.false_eq_true, List.getD_cons_succ]
        have hfun : (fun j2 => g.gate lv (g.step + 1 + j2)) =
            (fun j2 => g.gate lv (g.step + (j2 + 1))) := by
          funext j2
          rw [show g.step + 1 + j2 = g.step + (j2 + 1) from by omega]
        simp only [hfun, show g.step + 1 + j = g.step + (j + 1) from by omega] at hrec
        rw [hrec]
        by_cases h2 : g.gate lv (g.step + (j + 1)) = true
        · rw [if_pos h2, if_pos h2]
          congr 1
          rw [cntTrue]
          simp only [Nat.add_zero, hc]
          simp
        · rw [if_neg h2, if_neg h2]

/-- **C7.** `render` gates exactly the 8 recognized effects; for each effect,
event `i`'s level is the next value of that effect's own level stream when
the effect's own activity gate fires at step `i` (the stream having advanced
once per earlier firing event), and is exactly `0` — with the stream not
advanced — when the gate does not fire. -/
theorem effect_gating :
    effectNames = ["original", "harmonizer", "filter", "distortion",
      "ringmodulation", "noise", "lorenz", "chenlee"] ∧
    (∀ (gates : String → ActivityLevel) (lvs : String → Nat)
        (streams : String → InfIt ℚ) (n : Nat),
      lvPerEffect gates lvs streams n =
        effectNames.map (fun e => (e, effectLevels (gates e) (lvs e) (streams e) n))) ∧
    ∀ (g : ActivityLevel) (lv : Nat) (s : InfIt ℚ) (n : Nat),
      (effectLevels g lv s n).length = n ∧
      ∀ i, i < n →
        (effectLevels g lv s n).getD i 0 =
          if g.gate lv (g.step + i) then
            s.f (s.idx + cntTrue (fun j => g.gate lv (g.step + j)) i)
          else 0 :=
  ⟨rfl, fun _ _ _ _ => rfl,
    fun g lv s n =>
      ⟨effectLevels_length lv n g s, fun i hi => effectLevels_getD lv n g s i hi⟩⟩

/-- Witness for **C7** at event index 1 of a 2-event render with an
even-step gate and a counting stream. -/
theorem effect_gating_witness :
    1 < 2 ∧
    (effectLevels gateEx 5 streamEx 2).getD 1 0 =
      (if gateEx.gate 5 (gateEx.step + 1) then
        streamEx.f (streamEx.idx + cntTrue (fun j => gateEx.gate 5 (gateEx.step + j)) 1)
      else 0) :=
  ⟨by decide, (effect_gating.2.2 gateEx 5 streamEx 2).2 1 (by decide)⟩

theorem ambientDrawsGo_length (st n : Nat) : (ambientDrawsGo st n).length = n := by
  induction n generalizing st with
  | zero => rfl
  | succ n ih => simp [ambientDrawsGo, ih]

theorem lcgIter_shift (s : Nat) : ∀ n, lcgIter (lcg s) n = lcgIter s (n + 1) := by
  intro n
  exact (Function.iterate_succ_apply lcg n s).symm

theorem ambientDrawsGo_getD (n : Nat) : ∀ (st i : Nat), i < n →
    (ambientDrawsGo st n).getD i 0 = (uniformDraw (lcgIter st i)).1 := by
  induction n with
  | zero => intro st i h; omega
  | succ n ih =>
    intro st i h
    cases i with
    | zero => rfl
    | succ j =>
      rw [ambientDrawsGo, List.getD_cons_succ, ih (uniformDraw st).2 j (by omega)]
      rw [show (uniformDraw st).2 = lcg st from rfl, lcgIter_shift]

theorem uniformDraw_bounds (st : Nat) :
    1 / 5 ≤ (uniformDraw st).1 ∧ (uniformDraw st).1 ≤ 2 / 5 := by
  unfold uniformDraw
  constructor
  · have h0 : (0 : ℚ) ≤ ((lcg st % 201 : Nat) : ℚ) / 1000 := by positivity
    linarith
  · have h1 : ((lcg st % 201 : Nat) : ℚ) ≤ 200 := by
      have := Nat.mod_lt (lcg st) (show 0 < 201 by omega)
      exact_mod_cast Nat.le_of_lt_succ this
    have h2 : ((lcg st % 201 : Nat) : ℚ) / 1000 ≤ 200 / 1000 := by linarith
    norm_num at h2 ⊢
    linarith

theorem zip_shift_getD_zero (x : ℚ) (xs : List ℚ) (h : 0 < xs.length) :
    (List.zip (x :: xs) xs).getD 0 (0, 0) = (x, xs.getD 0 0) := by
  cases xs with
  | nil => simp at h
  | cons y ys => simp [List.zip_cons_cons]

theorem zip_shift_getD : ∀ (j : Nat) (x : ℚ) (xs : List ℚ), j + 1 < xs.length →
    (List.zip (x :: xs) xs).getD (j + 1) (0, 0) = (xs.getD j 0, xs.getD (j + 1) 0)
  | j, x, [] => by intro h; simp at h
  | 0, x, y :: ys => by
    intro h
    cases ys with
    | nil => simp at h
    | cons z zs => simp [List.zip_cons_cons]
  | j + 1, x, y :: ys => by
    intro h
    rw [List.zip_cons_cons, List.getD_cons_succ,
      zip_shift_getD j y ys (by simpa using h)]
    simp

/-- **C8.** In every render, for every event index `i ≥ 1`, the leading
ambient-noise value of event `i` equals the trailing ambient-noise value of
event `i - 1` (the ramps chain continuously across the event sequence), and
each trailing value is the `i`-th draw of the fixed-seed uniform stream,
lying within the uniform bounds `[0.2, 0.4]`. -/
theorem ambient_ramps_chain (n i : Nat) (h1 : 1 ≤ i) (h2 : i < n) :
    ((ambientPairs n).getD i (0, 0)).1 = ((ambientPairs n).getD (i - 1) (0, 0)).2 ∧
    ((ambientPairs n).getD i (0, 0)).2 = uniformStreamVal i ∧
    1 / 5 ≤ uniformStreamVal i ∧ uniformStreamVal i ≤ 2 / 5 := by
  obtain ⟨j, rfl⟩ : ∃ j, i = j + 1 := ⟨i - 1, by omega⟩
  have hdlen : (ambientDraws n).length = n := ambientDrawsGo_length _ n
  have hjlen : j + 1 < (ambientDraws n).length := by omega
  have hcur := zip_shift_getD j 0 (ambientDraws n) hjlen
  refine ⟨?_, ?_, ?_, ?_⟩
  · rw [show j + 1 - 1 = j from by omega]
    rw [(show ambientPairs n = List.zip (0 :: ambientDraws n) (ambientDraws n)
      from rfl), hcur]
    cases j with
    | zero =>
      rw [zip_shift_getD_zero 0 (ambientDraws n) (by omega)]
    | succ j2 =>
      rw [zip_shift_getD j2 0 (ambientDraws n) (by omega)]
  · rw [(show ambientPairs n = List.zip (0 :: ambientDraws n) (ambientDraws n)
      from rfl), hcur]
    exact ambientDrawsGo_getD n (pySeed 1) (j + 1) (by omega)
  · exact (uniformDraw_bounds _).1
  · exact (uniformDraw_bounds _).2

/-- Witness for **C8** at the second event of a 2-event render. -/
theorem ambient_ramps_chain_witness :
    1 ≤ 1 ∧ 1 < 2 ∧
    (((ambientPairs 2).getD 1 (0, 0)).1 = ((ambientPairs 2).getD 0 (0, 0)).2 ∧
     ((ambientPairs 2).getD 1 (0, 0)).2 = uniformStreamVal 1 ∧
     1 / 5 ≤ uniformStreamVal 1 ∧ uniformStreamVal 1 ≤ 2 / 5) :=
  ⟨by decide, by decide, ambient_ramps_chain 2 1 (by decide) (by decide)⟩

theorem updateKV_hasKey_self {α : Type} (d : PyDict α) (k : String) (v : α) :
    (d.updateKV k v).hasKey k = true := by
  unfold PyDict.updateKV
  by_cases h : d.hasKey k = true
  · rw [if_pos h]
    unfold PyDict.hasKey at h ⊢
    rw [List.any_eq_true] at h ⊢
    obtain ⟨e, he, hk⟩ := h
    refine ⟨(k, v), List.mem_map.mpr ⟨e, he, by rw [if_pos hk]⟩, by simp⟩
  · rw [if_neg h]
    unfold PyDict.hasKey
    rw [List.any_eq_true]
    exact ⟨(k, v), by simp, by simp⟩

theorem updateKV_hasKey_mono {α : Type} (d : PyDict α) (k k2 : String) (v : α)
    (h : d.hasKey k2 = true) : (d.updateKV k v).hasKey k2 = true := by
  unfold PyDict.hasKey at h
  rw [List.any_eq_true] at h
  obtain ⟨e, he, hk⟩ := h
  unfold PyDict.updateKV
  by_cases hh : d.hasKey k = true
  · rw [if_pos hh]
    unfold PyDict.hasKey
    rw [List.any_eq_true]
    by_cases hek : (e.1 == k) = true
    · refine ⟨(k, v), List.mem_map.mpr ⟨e, he, by rw [if_pos hek]⟩, ?_⟩
      have h1 : e.1 = k := by simpa using hek
      have h2 : e.1 = k2 := by simpa using hk
      simp [← h1, h2]
    · exact ⟨e, List.mem_map.mpr ⟨e, he, by rw [if_neg hek]⟩, hk⟩
  · rw [if_neg hh]
    unfold PyDict.hasKey
    rw [List.any_eq_true]
    exact ⟨e, List.mem_append_left _ he, hk⟩

theorem fillStep_hasKey_mono (p : PyDict Nat × PyDict (InfIt ℚ))
    (e k : String) :
    (p.1.hasKey k = true → (fillStep p e).1.hasKey k = true) ∧
    (p.2.hasKey k = true → (fillStep p e).2.hasKey k = true) := by
  unfold fillStep
  constructor
  · intro h
    dsimp only
    split
    · exact h
    · exact updateKV_hasKey_mono p.1 e k 0 h
  · intro h
    dsimp only
    split
    · exact h
    · exact updateKV_hasKey_mono p.2 e k (InfIt.cycle [1] 1) h

theorem fillStep_hasKey_self (p : PyDict Nat × PyDict (InfIt ℚ))
    (e : String) :
    (fillStep p e).1.hasKey e = true ∧ (fillStep p e).2.hasKey e = true := by
  unfold fillStep
  constructor
  · dsimp only
    split
    next h => exact h
    next h => exact updateKV_hasKey_self p.1 e 0
  · dsimp only
    split
    next h => exact h
    next h => exact updateKV_hasKey_self p.2 e (InfIt.cycle [1] 1)

theorem foldl_fillStep_mono (es : List String) :
    ∀ (p : PyDict Nat × PyDict (InfIt ℚ)) (k : String),
      (p.1.hasKey k = true → (es.foldl fillStep p).1.hasKey k = true) ∧
      (p.2.hasKey k = true → (es.foldl fillStep p).2.hasKey k = true) := by
  induction es with
  | nil => exact fun p k => ⟨id, id⟩
  | cons x xs ih =>
    intro p k
    rw [List.foldl_cons]
    constructor
    · intro h
      exact (ih (fillStep p x) k).1 ((fillStep_hasKey_mono p x k).1 h)
    · intro h
      exact (ih (fillStep p x) k).2 ((fillStep_hasKey_mono p x k).2 h)

theorem foldl_fillStep_ensures (es : List String) :
    ∀ (p : PyDict Nat × PyDict (InfIt ℚ)) (e : String), e ∈ es →
      (es.foldl fillStep p).1.hasKey e = true ∧
      (es.foldl fillStep p).2.hasKey e = true := by
  induction es with
  | nil => intro p e he; cases he
  | cons x xs ih =>
    intro p e he
    rw [List.foldl_cons]
    rcases List.mem_cons.mp he with rfl | hmem
    · exact ⟨(foldl_fillStep_mono xs (fillStep p e) e).1 (fillStep_hasKey_self p e).1,
        (foldl_fillStep_mono xs (fillStep p e) e).2 (fillStep_hasKey_self p e).2⟩
    · exact ih (fillStep p x) e hmem

theorem getD_set_zero {α : Type} (l : List α) (x d : α) (h : 0 < l.length) :
    (l.set 0 x).getD 0 d = x := by
  cases l with
  | nil => simp at h
  | cons y ys => rfl

/-- **C10.** Constructing a `BrokenRadio` without `activity_lv_per_effect` or
`level_per_effect` mutates the shared default dict objects in place: after
one construction the shared defaults contain an entry for every recognized
effect; the constructed instance holds references to (aliases of) the shared
default objects rather than copies — and with caller-supplied dicts it
aliases those instead; and a construction performed after an earlier one
still finds the earlier entries present in the shared defaults. -/
theorem default_dict_mutation (h : Heap)
    (ha : defaultActivityRef < h.aDicts.length)
    (hl : defaultLevelRef < h.lDicts.length) :
    (∀ e, e ∈ effectNames →
      ((constructRadioDicts h none none).1.aDicts.getD defaultActivityRef
        ⟨[]⟩).hasKey e = true ∧
      ((constructRadioDicts h none none).1.lDicts.getD defaultLevelRef
        ⟨[]⟩).hasKey e = true) ∧
    (constructRadioDicts h none none).2 = (defaultActivityRef, defaultLevelRef) ∧
    (∀ ar lr, (constructRadioDicts h (some ar) (some lr)).2 = (ar, lr)) ∧
    (∀ e, e ∈ effectNames →
      ((constructRadioDicts (constructRadioDicts h none none).1 none
        none).1.aDicts.getD defaultActivityRef ⟨[]⟩).hasKey e = true) := by
  refine ⟨?_, rfl, fun ar lr => rfl, ?_⟩
  · intro e he
    constructor
    · have h1 : (constructRadioDicts h none none).1.aDicts.getD
          defaultActivityRef ⟨[]⟩ =
          (fillEffects (h.aDicts.getD 0 ⟨[]⟩) (h.lDicts.getD 0 ⟨[]⟩)).1 :=
        getD_set_zero _ _ _ ha
      rw [h1]
      exact (foldl_fillStep_ensures effectNames
        (h.aDicts.getD 0 ⟨[]⟩, h.lDicts.getD 0 ⟨[]⟩) e he).1
    · have h1 : (constructRadioDicts h none none).1.lDicts.getD
          defaultLevelRef ⟨[]⟩ =
          (fillEffects (h.aDicts.getD 0 ⟨[]⟩) (h.lDicts.getD 0 ⟨[]⟩)).2 :=
        getD_set_zero _ _ _ hl
      rw [h1]
      exact (foldl_fillStep_ensures effectNames
        (h.aDicts.getD 0 ⟨[]⟩, h.lDicts.getD 0 ⟨[]⟩) e he).2
  · intro e he
    have ha2 : defaultActivityRef <
        (constructRadioDicts h none none).1.aDicts.length := by
      show defaultActivityRef < (h.aDicts.set 0 _).length
      simpa using ha
    have h1 : (constructRadioDicts (constructRadioDicts h none none).1 none
        none).1.aDicts.getD defaultActivityRef ⟨[]⟩ =
        (fillEffects
          ((constructRadioDicts h none none).1.aDicts.getD 0 ⟨[]⟩)
          ((constructRadioDicts h none none).1.lDicts.getD 0 ⟨[]⟩)).1 :=
      getD_set_zero _ _ _ ha2
    rw [h1]
    exact (foldl_fillStep_ensures effectNames
      ((constructRadioDicts h none none).1.aDicts.getD 0 ⟨[]⟩,
        (constructRadioDicts h none none).1.lDicts.getD 0 ⟨[]⟩) e he).1

/-- Witness for **C10** at the definition-time heap with empty defaults. -/
theorem default_dict_mutation_witness :
    defaultActivityRef < initialHeap.aDicts.length ∧
    defaultLevelRef < initialHeap.lDicts.length ∧
    ((∀ e, e ∈ effectNames →
      ((constructRadioDicts initialHeap none none).1.aDicts.getD
        defaultActivityRef ⟨[]⟩).hasKey e = true ∧
      ((constructRadioDicts initialHeap none none).1.lDicts.getD
        defaultLevelRef ⟨[]⟩).hasKey e = true) ∧
    (constructRadioDicts initialHeap none none).2 =
      (defaultActivityRef, defaultLevelRef) ∧
    (∀ ar lr, (constructRadioDicts initialHeap (some ar) (some lr)).2 =
      (ar, lr)) ∧
    (∀ e, e ∈ effectNames →
      ((constructRadioDicts (constructRadioDicts initialHeap none none).1 none
        none).1.aDicts.getD defaultActivityRef ⟨[]⟩).hasKey e = true)) :=
  ⟨by decide, by decide,
    default_dict_mutation initialHeap (by decide) (by decide)⟩

end Speech
